import Mathlib

/-!
# Verification of `nitransforms/io/fsl.py`

A shallow embedding, in Lean 4, of the FSL linear-transform I/O module of
`nitransforms` (file `nitransforms/io/fsl.py`), together with proofs of the
behavioural properties stated in the module's specification.

Modelling conventions:

* 4×4 affine matrices (`numpy` float64 arrays in the source) are embedded as
  `Matrix (Fin 4) (Fin 4) ℚ`: exact rational arithmetic in place of IEEE-754
  floating point, so algebraic identities hold exactly.
* `np.linalg.inv` is embedded as the computable `inv4` (adjugate divided by
  determinant).  `np.linalg.inv` raises `LinAlgError` on a singular input;
  `inv4` is total and returns the zero matrix there, and every theorem that
  needs an inverse carries the corresponding nonsingularity hypothesis, so the
  junk value is never relied upon.
* Python strings are embedded as `List Char`; the files written by
  `to_filename` are embedded as the list of `(path, contents)` pairs the call
  produces, in the order the writes happen.
* An image reference (a `nibabel` spatial image in the source) is a record of
  the three attributes the module reads: `affine`, `shape`, and the per-axis
  voxel sizes that the external collaborator `nibabel.affines.voxel_sizes`
  derives from the affine.
* Fallible operations (`np.genfromtxt` raising on malformed text) are embedded
  as `Option`-valued functions returning `none` where the library raises.
-/

open Matrix

/-- 4×4 matrix of exact rationals, embedding a `numpy` float64 `(4, 4)` array. -/
abbrev Mat4 : Type := Matrix (Fin 4) (Fin 4) ℚ

/-- Computable matrix inverse, embedding `np.linalg.inv` for 4×4 arrays:
the adjugate scaled by the inverse of the determinant.  On a singular input
(where `np.linalg.inv` raises `LinAlgError`) it returns the zero matrix; no
theorem uses its value there. -/
def inv4 (A : Mat4) : Mat4 := (A.det)⁻¹ • A.adjugate

/-- `np.swapaxes(m, 0, 1)` on a 2-D array: exchanging the two axes of a 4×4
array is its transpose. -/
def swapaxes01 (A : Mat4) : Mat4 := Aᵀ

/-- Python strings are modelled as lists of characters. -/
abbrev Str : Type := List Char

/-- The whitespace characters recognised by Python's `str.strip` /
`str.splitlines`-adjacent processing and by `np.genfromtxt`'s default
tokenisation. -/
def isWs (c : Char) : Bool :=
  c = ' ' || c = '\t' || c = '\n' || c = '\r' || c = '\x0b' || c = '\x0c'

/-- Worker for `splitWs`: `acc` holds the (reversed) characters of the token
currently being read. -/
def splitWsGo : Str → Str → List Str
  | [], acc => if acc = [] then [] else [acc.reverse]
  | c :: cs, acc =>
    if isWs c then
      if acc = [] then splitWsGo cs [] else acc.reverse :: splitWsGo cs []
    else splitWsGo cs (c :: acc)

/-- Tokenisation on runs of whitespace, dropping empty pieces: the splitting
`np.genfromtxt` applies with its default `delimiter=None`. -/
def splitWs (s : Str) : List Str := splitWsGo s []

/-- A whitespace-free nonempty character run: what `splitWs` recognises as
one token. -/
def isToken (t : Str) : Prop := t ≠ [] ∧ ∀ c ∈ t, isWs c = false

/-- `str.splitlines()` restricted to `'\n'` line breaks (the only break this
module's own writer emits): the pieces between newline characters, with no
trailing empty piece when the string ends in a newline, as in Python. -/
def splitLines : Str → List Str
  | [] => []
  | c :: cs =>
    if c = '\n' then [] :: splitLines cs
    else
      match splitLines cs with
      | [] => [[c]]
      | l :: ls => (c :: l) :: ls

/-- Decomposition of a text at every newline character (`s.split('\n')` in
Python): the pieces between newline characters.  A newline-terminated text
ends with an empty trailing piece, the spec's "trailing empty line". -/
def splitNl : Str → List Str
  | [] => [[]]
  | c :: cs =>
    if c = '\n' then [] :: splitNl cs
    else
      match splitNl cs with
      | [] => [[c]]
      | l :: ls => (c :: l) :: ls

/-- `str.strip()`: the string with leading and trailing whitespace removed. -/
def strip (s : Str) : Str :=
  ((s.dropWhile isWs).reverse.dropWhile isWs).reverse

/-- Worker for `natChars`: peels decimal digits from the low end, prepending
their characters to `acc`; `fuel` dominates `n` so the recursion is
structural. -/
def natCharsGo : ℕ → ℕ → Str → Str
  | 0, _, acc => acc
  | fuel + 1, n, acc =>
    if n < 10 then Nat.digitChar n :: acc
    else natCharsGo fuel (n / 10) (Nat.digitChar (n % 10) :: acc)

/-- Decimal digit characters of a natural number, most significant digit
first (C `%d` on a nonnegative value). -/
def natChars (n : ℕ) : Str := natCharsGo (n + 1) n []

/-- The C `%g` formatting of one float64 matrix entry (`'%g' % col` in the
source), modelled on the subdomain where `%g` is exact and lossless: integer
values of magnitude below 10⁶, which `%g` prints as plain decimal integers.
Outside that subdomain (`%g` rounds to 6 significant digits and may switch to
scientific notation, both lossy float-level behaviours) the model prints the
numerator by the same integer rule; the serialization theorems quantify only
over the exact subdomain `gExact`. -/
def fmtg (x : ℚ) : Str :=
  if x < 0 then '-' :: natChars x.num.natAbs else natChars x.num.natAbs

/-- The values on which the modelled formatter agrees exactly with C `%g` on
a float64: integers of magnitude below 10⁶ ("values representable exactly in
the chosen precision"). -/
def gExact (x : ℚ) : Prop := x.den = 1 ∧ x.num.natAbs < 1000000

instance (x : ℚ) : Decidable (gExact x) :=
  inferInstanceAs (Decidable (x.den = 1 ∧ x.num.natAbs < 1000000))

/-- Numeric value of one decimal digit character. -/
def digitVal (c : Char) : Option ℕ :=
  if '0' ≤ c ∧ c ≤ '9' then some (c.toNat - '0'.toNat) else none

/-- Parse a nonempty all-digit token as a natural number (most significant
digit first). -/
def parseNatTok (cs : Str) : Option ℕ :=
  if cs = [] then none
  else (cs.mapM digitVal).map fun ds => Nat.ofDigits 10 ds.reverse

/-- Parse one whitespace-free token as a number: the per-token float
conversion `np.genfromtxt` applies, restricted to the integer tokens the
modelled formatter emits.  A token outside this grammar fails the parse, as
`genfromtxt` raises on a token it cannot convert. -/
def parseTok (cs : Str) : Option ℚ :=
  if cs.head? = some '-' then
    (parseNatTok cs.tail).map fun n : ℕ => -(n : ℚ)
  else (parseNatTok cs).map fun n : ℕ => (n : ℚ)

/-- An image reference: the read-only view of a spatial image that the module
uses.  `affine` and `shape` are the image's attributes of the same names;
`zooms` is the per-axis voxel-size vector that the external collaborator
`nibabel.affines.voxel_sizes` derives from the affine (the spec lists
voxel-size extraction as out of scope, provided by an image-I/O
collaborator). -/
structure ImageRef where
  affine : Mat4
  shape : Fin 3 → ℕ
  zooms : Fin 3 → ℚ

namespace FSL

/-- `_fsl_aff_adapt(space)`: computes the pair `(swp, diag(zooms))` used to
convert between RAS+ and FSL's internal coordinate system.
`zooms = list(voxel_sizes(aff)) + [1]`; `swp` starts as `np.eye(4)` and, when
`np.linalg.det(aff) > 0`, has entry `(0, 0)` set to `-1.0` and entry `(0, 3)`
set to `(space.shape[0] - 1) * zooms[0]`. -/
def _fsl_aff_adapt (space : ImageRef) : Mat4 × Mat4 :=
  let aff := space.affine
  let zooms : Fin 4 → ℚ := ![space.zooms 0, space.zooms 1, space.zooms 2, 1]
  let swp : Mat4 :=
    if 0 < aff.det then
      !![-1, 0, 0, ((space.shape 0 : ℚ) - 1) * zooms 0;
          0, 1, 0, 0;
          0, 0, 1, 0;
          0, 0, 0, 1]
    else 1
  (swp, Matrix.diagonal zooms)

/-- A single FSL linear transform: the record holds the 4×4 `parameters`
field of the structured array backing `FSLLinearTransform`. -/
structure FSLLinearTransform where
  parameters : Mat4
deriving DecidableEq

instance : Inhabited FSLLinearTransform := ⟨⟨1⟩⟩

/-- `FSLLinearTransform.__str__` (also `to_string`):

    lines = [' '.join(['%g' % col for col in row])
             for row in self.structarr['parameters']]
    return '\n'.join(lines + [''])
-/
def FSLLinearTransform.to_string (self : FSLLinearTransform) : Str :=
  let lines := (List.finRange 4).map fun i =>
    List.intercalate [' '] ((List.finRange 4).map fun j => fmtg (self.parameters i j))
  List.intercalate ['\n'] (lines ++ [[]])

/-- `FSLLinearTransform.from_ras(ras, moving, reference)`:

    refswp, refspc = _fsl_aff_adapt(reference)
    pre = reference.affine.dot(np.linalg.inv(refspc).dot(np.linalg.inv(refswp)))
    movswp, movspc = _fsl_aff_adapt(moving)
    post = np.linalg.inv(movswp).dot(movspc.dot(np.linalg.inv(moving.affine)))
    mat = np.linalg.inv(np.swapaxes(post.dot(ras.dot(pre)), 0, 1))
    tf.structarr['parameters'] = mat.T
-/
def FSLLinearTransform.from_ras (ras : Mat4) (moving reference : ImageRef) :
    FSLLinearTransform :=
  let refadapt := _fsl_aff_adapt reference
  let pre := reference.affine * (inv4 refadapt.2 * inv4 refadapt.1)
  let movadapt := _fsl_aff_adapt moving
  let post := inv4 movadapt.1 * (movadapt.2 * inv4 moving.affine)
  let mat := inv4 (swapaxes01 (post * (ras * pre)))
  ⟨mat.transpose⟩

/-- `FSLLinearTransform.from_string(string)`: `np.genfromtxt([string])` with
the `(4, 4)`-shaped float64 dtype of `parameters`: tokenise the text on
whitespace, convert each token, and reshape the 16 values row-major into the
4×4 `parameters` array.  A wrong token count or an unconvertible token makes
`genfromtxt` raise; the model returns `none` there. -/
def FSLLinearTransform.from_string (string : Str) : Option FSLLinearTransform :=
  match (splitWs string).mapM parseTok with
  | none => none
  | some vals =>
    if h : vals.length = 16 then
      some ⟨Matrix.of fun i j =>
        vals.get ⟨4 * i.val + j.val, by have hi := i.isLt; have hj := j.isLt; omega⟩⟩
    else none

/-- Modelled from the spec: `FSLLinearTransform.to_ras` is not among the
source files (only its caller `FSLLinearTransformArray.to_ras` is; the method
lives outside `fsl.py`).  Per the spec it is "the algebraic inverse
composition, recovering a RAS+ affine from the stored native matrix using the
same `pre`/`post` factors": undo the storage transpose, undo the axis swap
and the inversion of `from_ras`, and cancel the `post` and `pre` factors:
`ras = post⁻¹ · axis_transpose(inv(storedᵀ)) · pre⁻¹`. -/
def FSLLinearTransform.to_ras (self : FSLLinearTransform)
    (moving reference : ImageRef) : Mat4 :=
  let refadapt := _fsl_aff_adapt reference
  let pre := reference.affine * (inv4 refadapt.2 * inv4 refadapt.1)
  let movadapt := _fsl_aff_adapt moving
  let post := inv4 movadapt.1 * (movadapt.2 * inv4 moving.affine)
  let mat := self.parameters.transpose
  inv4 post * (swapaxes01 (inv4 mat) * inv4 pre)

/-- Modelled from the spec: the single-transform `to_filename` is inherited
from `LinearParameters` in `nitransforms/io/base.py`, which is not among the
source files (only its caller `FSLLinearTransformArray.to_filename` is).  Per
the spec, a one-element series "delegates to writing that single transform
under `path` verbatim (format determined by Single Transform's own
file-writing convention)": one write of the transform's `to_string()` output
at the given path. -/
def FSLLinearTransform.to_filename (self : FSLLinearTransform) (filename : Str) :
    List (Str × Str) := [(filename, self.to_string)]

/-- A series of FSL transforms: the `xforms` list of
`FSLLinearTransformArray`. -/
structure FSLLinearTransformArray where
  xforms : List FSLLinearTransform
deriving DecidableEq

/-- The numeric part of `'%s.%03d' % (filename, i)`: the decimal digits of
`i`, left-padded with `'0'` to width 3 (an index of 1000 or more overflows
the padding width silently). -/
def fmt03d (n : ℕ) : Str :=
  List.replicate (3 - (natChars n).length) '0' ++ natChars n

/-- `FSLLinearTransformArray.to_filename(filename)`:

    if len(self.xforms) == 1:
        self.xforms[0].to_filename(filename)
        return
    for i, xfm in enumerate(self.xforms):
        with open('%s.%03d' % (filename, i), 'w') as f:
            f.write(xfm.to_string())

(an empty series runs the empty loop and writes nothing). -/
def FSLLinearTransformArray.to_filename (self : FSLLinearTransformArray)
    (filename : Str) : List (Str × Str) :=
  if self.xforms.length = 1 then
    self.xforms.headI.to_filename filename
  else
    self.xforms.enum.map fun ix =>
      (filename ++ '.' :: fmt03d ix.1, ix.2.to_string)

/-- `FSLLinearTransformArray.to_ras(moving, reference)`: stack each element's
`to_ras` along a new leading axis (the stacked `(N, 4, 4)` array is modelled
as the list of its 4×4 slabs, leading index first). -/
def FSLLinearTransformArray.to_ras (self : FSLLinearTransformArray)
    (moving reference : ImageRef) : List Mat4 :=
  self.xforms.map fun xfm => xfm.to_ras moving reference

/-- `FSLLinearTransformArray.to_string()`:
`'\n\n'.join([xfm.to_string() for xfm in self.xforms])`. -/
def FSLLinearTransformArray.to_string (self : FSLLinearTransformArray) : Str :=
  List.intercalate ['\n', '\n'] (self.xforms.map fun xfm => xfm.to_string)

/-- `FSLLinearTransformArray.from_ras(ras, moving, reference)`: one inner
`from_ras` per leading-axis slab `ras[i, ...]`, in index order. -/
def FSLLinearTransformArray.from_ras (ras : List Mat4)
    (moving reference : ImageRef) : FSLLinearTransformArray :=
  ⟨ras.map fun r => FSLLinearTransform.from_ras r moving reference⟩

/-- `FSLLinearTransformArray.from_string(string)`:

    _self.xforms = [cls._inner_type.from_string(l.strip())
                    for l in string.splitlines() if l.strip()]

A line the inner parser rejects makes the comprehension raise; the model
sequences the per-line parses through `Option`. -/
def FSLLinearTransformArray.from_string (string : Str) :
    Option FSLLinearTransformArray :=
  ((((splitLines string).map strip).filter fun t => t ≠ []).mapM
    FSLLinearTransform.from_string).map fun xfms => ⟨xfms⟩

/-- The spec's concrete scenario image: affine `diag(2, 2, 2, 1)` (positive
determinant), shape `(10, 10, 10)`; `nibabel.affines.voxel_sizes` on this
affine returns the column norms `(2, 2, 2)`. -/
def demoImage : ImageRef :=
  ⟨Matrix.diagonal ![2, 2, 2, 1], ![10, 10, 10], ![2, 2, 2]⟩

/-- A degenerate image whose affine is singular (determinant exactly 0): the
zero affine, whose column norms are `(0, 0, 0)`. -/
def singularImage : ImageRef := ⟨0, ![10, 10, 10], ![0, 0, 0]⟩

/-- A concrete well-formed image with a negative-determinant (radiological)
affine: `diag(-1, 1, 1, 1)`, shape `(4, 4, 4)`, unit voxel sizes. -/
def negImage : ImageRef :=
  ⟨Matrix.diagonal ![-1, 1, 1, 1], ![4, 4, 4], ![1, 1, 1]⟩

/-- A concrete two-element series (two identity transforms). -/
def demoArr : FSLLinearTransformArray := ⟨[⟨1⟩, ⟨1⟩]⟩

/-- A concrete single-transform text: sixteen whitespace-separated numeric
tokens on one line, the line format the series parser expects. -/
def demoLine : Str := "1 0 0 2 0 1 0 3 0 0 1 4 0 0 0 1".toList

/-- A concrete series text: one parseable transform line surrounded by blank
and whitespace-only lines. -/
def demoSeriesText : Str := '\n' :: ' ' :: '\n' :: demoLine ++ ['\n', '\n']

/-- The transform `demoLine` denotes: its sixteen tokens read row-major. -/
def demoXfm : FSLLinearTransform :=
  ⟨!![1, 0, 0, 2; 0, 1, 0, 3; 0, 0, 1, 4; 0, 0, 0, 1]⟩

end FSL

/-! ## Algebra of the embedded `np.linalg.inv` -/

namespace FSL

theorem mul_inv4_self {A : Mat4} (h : A.det ≠ 0) : A * inv4 A = 1 := by
  rw [inv4, Matrix.mul_smul, Matrix.mul_adjugate, smul_smul,
    inv_mul_cancel₀ h, one_smul]

theorem inv4_mul_self {A : Mat4} (h : A.det ≠ 0) : inv4 A * A = 1 := by
  rw [inv4, Matrix.smul_mul, Matrix.adjugate_mul, smul_smul,
    inv_mul_cancel₀ h, one_smul]

theorem inv4_eq_of_mul_eq_one {A B : Mat4} (h : A.det ≠ 0) (hB : A * B = 1) :
    inv4 A = B := by
  calc inv4 A = inv4 A * (A * B) := by rw [hB, mul_one]
    _ = (inv4 A * A) * B := by rw [mul_assoc]
    _ = B := by rw [inv4_mul_self h, one_mul]

theorem det_inv4_ne_zero {A : Mat4} (h : A.det ≠ 0) : (inv4 A).det ≠ 0 := by
  intro h0
  have h1 : (inv4 A * A).det = 1 := by rw [inv4_mul_self h, Matrix.det_one]
  rw [Matrix.det_mul, h0, zero_mul] at h1
  exact zero_ne_one h1

theorem inv4_inv4 {A : Mat4} (h : A.det ≠ 0) : inv4 (inv4 A) = A :=
  inv4_eq_of_mul_eq_one (det_inv4_ne_zero h) (inv4_mul_self h)

/-- Transposition commutes with `inv4`, with no nonsingularity assumption
(both sides are the zero matrix in the singular case). -/
theorem inv4_transpose (A : Mat4) : inv4 Aᵀ = (inv4 A)ᵀ := by
  rw [inv4, inv4, Matrix.det_transpose, ← Matrix.adjugate_transpose,
    Matrix.transpose_smul]

/-! ## Determinants of the Coordinate Adapter outputs -/

theorem det_adapt_swp_ne_zero (s : ImageRef) :
    ((_fsl_aff_adapt s).1).det ≠ 0 := by
  rw [_fsl_aff_adapt]
  by_cases h : 0 < s.affine.det
  · simp only [h, if_true]
    norm_num [Matrix.det_succ_row_zero, Fin.sum_univ_succ]
  · simp [h]

theorem det_adapt_spc (s : ImageRef) :
    ((_fsl_aff_adapt s).2).det = s.zooms 0 * s.zooms 1 * s.zooms 2 := by
  rw [_fsl_aff_adapt]
  simp [Matrix.det_diagonal, Fin.prod_univ_four, mul_assoc]

theorem det_adapt_spc_ne_zero {s : ImageRef} (hz : ∀ i, s.zooms i ≠ 0) :
    ((_fsl_aff_adapt s).2).det ≠ 0 := by
  rw [det_adapt_spc]
  exact mul_ne_zero (mul_ne_zero (hz 0) (hz 1)) (hz 2)

/-- The algebraic heart of the `from_ras`/`to_ras` round trip, for arbitrary
nonsingular `post`/`pre` factors. -/
theorem roundtrip_core (post pre A : Mat4) (hpost : post.det ≠ 0)
    (hpre : pre.det ≠ 0) (hA : A.det ≠ 0) :
    inv4 post *
      (swapaxes01 (inv4 (inv4 (swapaxes01 (post * (A * pre))))) * inv4 pre) =
      A := by
  have hX : (post * (A * pre)).det ≠ 0 := by
    rw [Matrix.det_mul, Matrix.det_mul]
    exact mul_ne_zero hpost (mul_ne_zero hA hpre)
  have hXt : ((post * (A * pre))ᵀ).det ≠ 0 := by rwa [Matrix.det_transpose]
  rw [swapaxes01, swapaxes01, inv4_inv4 hXt, Matrix.transpose_transpose]
  calc inv4 post * (post * (A * pre) * inv4 pre)
      = inv4 post * (post * (A * (pre * inv4 pre))) := by
        rw [mul_assoc, mul_assoc]
    _ = inv4 post * post * A := by rw [mul_inv4_self hpre, mul_one, ← mul_assoc]
    _ = A := by rw [inv4_mul_self hpost, one_mul]

end FSL

/-! ## Text-layer lemmas -/

namespace FSL

theorem splitWsGo_ws_cons {c : Char} (hc : isWs c = true) (cs : Str) :
    splitWsGo (c :: cs) [] = splitWsGo cs [] := by
  simp [splitWsGo, hc]

theorem splitWsGo_token :
    ∀ t : Str, t ≠ [] → (∀ c ∈ t, isWs c = false) →
    ∀ rest : Str, (rest = [] ∨ ∃ d rest', rest = d :: rest' ∧ isWs d = true) →
    ∀ acc : Str,
      splitWsGo (t ++ rest) acc = (acc.reverse ++ t) :: splitWsGo rest [] := by
  intro t
  induction t with
  | nil => intro h; exact absurd rfl h
  | cons c t' ih =>
    intro _ ht rest hrest acc
    have hc : isWs c = false := ht c (List.mem_cons_self c t')
    rw [List.cons_append, splitWsGo, if_neg (by simp [hc])]
    by_cases ht' : t' = []
    · subst ht'
      rw [List.nil_append]
      rcases hrest with rfl | ⟨d, rest', rfl, hd⟩
      · rw [splitWsGo, if_neg (by simp), splitWsGo, if_pos rfl]
        simp
      · rw [splitWsGo, if_pos hd, if_neg (by simp), splitWsGo_ws_cons hd]
        simp
    · rw [ih ht' (fun d hd => ht d (List.mem_cons_of_mem c hd)) rest hrest (c :: acc)]
      simp

theorem splitWs_token_sep {t : Str} (ht : isToken t) {w : Char}
    (hw : isWs w = true) (rest : Str) :
    splitWs (t ++ w :: rest) = t :: splitWs rest := by
  rw [splitWs, splitWsGo_token t ht.1 ht.2 (w :: rest)
    (Or.inr ⟨w, rest, rfl, hw⟩) [], splitWsGo_ws_cons hw]
  rfl

theorem splitWs_token_end {t : Str} (ht : isToken t) :
    splitWs (t ++ []) = [t] := by
  rw [splitWs, splitWsGo_token t ht.1 ht.2 [] (Or.inl rfl) []]
  rfl

theorem natCharsGo_eq :
    ∀ n : ℕ, 0 < n → ∀ fuel acc, n ≤ fuel →
      natCharsGo fuel n acc = ((Nat.digits 10 n).map Nat.digitChar).reverse ++ acc := by
  intro n
  induction n using Nat.strong_induction_on with
  | _ n ih =>
    intro hn fuel acc hfuel
    match fuel with
    | 0 => omega
    | f + 1 =>
      rw [natCharsGo]
      by_cases h10 : n < 10
      · rw [if_pos h10, Nat.digits_def' (by norm_num : 1 < 10) hn,
          Nat.div_eq_of_lt h10]
        simp [Nat.mod_eq_of_lt h10]
      · rw [if_neg h10]
        have hdiv : 0 < n / 10 := Nat.div_pos (le_of_not_lt h10) (by norm_num)
        have hlt : n / 10 < n := Nat.div_lt_self hn (by norm_num)
        rw [ih (n / 10) hlt hdiv f _ (by omega),
          Nat.digits_def' (by norm_num : 1 < 10) hn]
        simp

theorem natChars_eq {n : ℕ} (h : n ≠ 0) :
    natChars n = ((Nat.digits 10 n).map Nat.digitChar).reverse := by
  rw [natChars, natCharsGo_eq n (Nat.pos_of_ne_zero h) (n + 1) [] (by omega),
    List.append_nil]

theorem natChars_zero : natChars 0 = ['0'] := rfl

theorem digitChar_not_ws {d : ℕ} (hd : d < 10) :
    isWs (Nat.digitChar d) = false := by
  interval_cases d <;> decide

theorem digitVal_digitChar {d : ℕ} (hd : d < 10) :
    digitVal (Nat.digitChar d) = some d := by
  interval_cases d <;> decide

theorem digitChar_ne_minus {d : ℕ} (hd : d < 10) : Nat.digitChar d ≠ '-' := by
  interval_cases d <;> decide

theorem natChars_mem {n : ℕ} {c : Char} (hc : c ∈ natChars n) :
    ∃ d, d < 10 ∧ c = Nat.digitChar d := by
  by_cases h : n = 0
  · subst h
    rw [natChars_zero] at hc
    simp at hc
    exact ⟨0, by norm_num, by rw [hc]; rfl⟩
  · rw [natChars_eq h, List.mem_reverse, List.mem_map] at hc
    obtain ⟨d, hd, rfl⟩ := hc
    exact ⟨d, Nat.digits_lt_base (by norm_num) hd, rfl⟩

theorem natChars_ne_nil (n : ℕ) : natChars n ≠ [] := by
  by_cases h : n = 0
  · subst h; rw [natChars_zero]; simp
  · rw [natChars_eq h]
    simp [Nat.digits_ne_nil_iff_ne_zero.mpr h]

theorem fmtg_isToken (x : ℚ) : isToken (fmtg x) := by
  rw [fmtg]
  by_cases h : x < 0
  · rw [if_pos h]
    refine ⟨by simp, ?_⟩
    intro c hc
    rcases List.mem_cons.mp hc with rfl | hc
    · decide
    · obtain ⟨d, hd, rfl⟩ := natChars_mem hc
      exact digitChar_not_ws hd
  · rw [if_neg h]
    refine ⟨natChars_ne_nil _, ?_⟩
    intro c hc
    obtain ⟨d, hd, rfl⟩ := natChars_mem hc
    exact digitChar_not_ws hd

theorem mapM_digitVal_map_digitChar (ds : List ℕ) (h : ∀ d ∈ ds, d < 10) :
    (ds.map Nat.digitChar).mapM digitVal = some ds := by
  induction ds with
  | nil => rfl
  | cons d ds ih =>
    rw [List.map_cons, List.mapM_cons, digitVal_digitChar (h d (List.mem_cons_self d ds)),
      ih (fun e he => h e (List.mem_cons_of_mem d he))]
    rfl

theorem parseNatTok_natChars (n : ℕ) : parseNatTok (natChars n) = some n := by
  by_cases h : n = 0
  · subst h; decide
  · rw [parseNatTok, if_neg (natChars_ne_nil n), natChars_eq h,
      ← List.map_reverse,
      mapM_digitVal_map_digitChar _
        (fun d hd => Nat.digits_lt_base (by norm_num) (List.mem_reverse.mp hd))]
    simp [Nat.ofDigits_digits]


theorem parseTok_fmtg {x : ℚ} (hden : x.den = 1) : parseTok (fmtg x) = some x := by
  have hx : (x.num : ℚ) = x := Rat.coe_int_num_of_den_eq_one hden
  rw [fmtg]
  by_cases h : x < 0
  · rw [if_pos h, parseTok]
    simp only [List.head?_cons, List.tail_cons, if_pos rfl]
    rw [parseNatTok_natChars, Option.map_some']
    have hnum : x.num ≤ 0 := by
      have h2 : (x.num : ℚ) < 0 := by rw [hx]; exact h
      exact_mod_cast le_of_lt h2
    refine congrArg some ?_
    rw [← Int.cast_natCast (R := ℚ), Int.ofNat_natAbs_of_nonpos hnum,
      Int.cast_neg, neg_neg, hx]
  · rw [if_neg h]
    have hnum : 0 ≤ x.num := by
      have h2 : (0 : ℚ) ≤ x := le_of_not_lt h
      rw [← hx] at h2
      exact_mod_cast h2
    obtain ⟨c, cs, hcons⟩ := List.exists_cons_of_ne_nil (natChars_ne_nil x.num.natAbs)
    have hcne : c ≠ '-' := by
      have hcmem : c ∈ natChars x.num.natAbs := by
        rw [hcons]; exact List.mem_cons_self c cs
      obtain ⟨d, hd, rfl⟩ := natChars_mem hcmem
      exact digitChar_ne_minus hd
    rw [parseTok, hcons, List.head?_cons, if_neg (by simp [hcne]), ← hcons,
      parseNatTok_natChars, Option.map_some']
    refine congrArg some ?_
    rw [← Int.cast_natCast (R := ℚ), Int.natAbs_of_nonneg hnum, hx]


theorem intercalate_single (s a : Str) : List.intercalate s [a] = a := by
  simp [List.intercalate]

theorem intercalate_cons_two (s a b : Str) (t : List Str) :
    List.intercalate s (a :: b :: t) = a ++ s ++ List.intercalate s (b :: t) := by
  simp [List.intercalate, List.intersperse]

theorem splitWs_line (ts : List Str) (hts : ∀ t ∈ ts, isToken t) (hne : ts ≠ [])
    {w : Char} (hw : isWs w = true) (rest : Str) :
    splitWs (List.intercalate [' '] ts ++ w :: rest) = ts ++ splitWs rest := by
  induction ts with
  | nil => cases hne rfl
  | cons t ts ih =>
    cases ts with
    | nil =>
      rw [intercalate_single, splitWs_token_sep (hts t (List.mem_cons_self t [])) hw]
      rfl
    | cons t' ts' =>
      rw [intercalate_cons_two, List.append_assoc, List.append_assoc,
        List.singleton_append,
        splitWs_token_sep (hts t (List.mem_cons_self t (t' :: ts'))) (by decide),
        ih (fun u hu => hts u (List.mem_cons_of_mem t hu)) (by simp)]
      rfl

theorem splitWs_block (rows : List (List Str))
    (h : ∀ r ∈ rows, r ≠ [] ∧ ∀ t ∈ r, isToken t) :
    splitWs (List.intercalate ['\n']
      ((rows.map (List.intercalate [' '])) ++ [[]])) = rows.flatten := by
  induction rows with
  | nil => rfl
  | cons r rows ih =>
    rw [List.map_cons, List.cons_append]
    cases hrw : rows.map (List.intercalate [' ']) ++ [[]] with
    | nil => simp at hrw
    | cons b t =>
      rw [intercalate_cons_two, List.append_assoc, List.singleton_append,
        splitWs_line r (h r (List.mem_cons_self r rows)).2
          (h r (List.mem_cons_self r rows)).1 (by decide),
        ← hrw, ih (fun u hu => h u (List.mem_cons_of_mem r hu))]
      rfl

theorem finRange_four : List.finRange 4 = [0, 1, 2, 3] := by decide


theorem gen_intercalate_single {α : Type} (s a : List α) :
    List.intercalate s [a] = a := by
  simp [List.intercalate]

theorem gen_intercalate_cons_two {α : Type} (s a b : List α) (t : List (List α)) :
    List.intercalate s (a :: b :: t) = a ++ s ++ List.intercalate s (b :: t) := by
  simp [List.intercalate, List.intersperse]

theorem splitNl_ne_nil (s : Str) : splitNl s ≠ [] := by
  cases s with
  | nil => simp [splitNl]
  | cons c cs =>
    rw [splitNl]
    by_cases h : c = '\n'
    · simp [h]
    · rw [if_neg h]
      cases hx : splitNl cs <;> simp

theorem splitNl_append_newline (x y : Str) :
    splitNl (x ++ '\n' :: y) = splitNl x ++ splitNl y := by
  induction x with
  | nil =>
    rw [List.nil_append]
    simp only [splitNl, if_pos rfl]
    rfl
  | cons c cs ih =>
    by_cases h : c = '\n'
    · subst h
      rw [List.cons_append, splitNl, if_pos rfl, ih, splitNl, if_pos rfl]
      rfl
    · obtain ⟨l, ls, hx⟩ := List.exists_cons_of_ne_nil (splitNl_ne_nil cs)
      rw [List.cons_append, splitNl, if_neg h, ih, hx, List.cons_append,
        splitNl, if_neg h, hx]
      rfl

theorem splitNl_no_newline (s : Str) (h : ∀ c ∈ s, c ≠ '\n') : splitNl s = [s] := by
  induction s with
  | nil => rfl
  | cons c cs ih =>
    rw [splitNl, if_neg (h c (List.mem_cons_self c cs)),
      ih fun d hd => h d (List.mem_cons_of_mem c hd)]

theorem splitNl_intercalate_blocks (bs : List Str) (hbs : bs ≠ []) :
    splitNl (List.intercalate ['\n', '\n'] bs) =
      List.intercalate [[]] (bs.map splitNl) := by
  induction bs with
  | nil => cases hbs rfl
  | cons b bs ih =>
    cases bs with
    | nil =>
      rw [gen_intercalate_single, List.map_cons, List.map_nil,
        gen_intercalate_single]
    | cons b' tl =>
      rw [gen_intercalate_cons_two, List.append_assoc]
      rw [show (['\n', '\n'] ++ List.intercalate ['\n', '\n'] (b' :: tl)) =
        '\n' :: '\n' :: List.intercalate ['\n', '\n'] (b' :: tl) from rfl]
      rw [splitNl_append_newline]
      rw [show splitNl ('\n' :: List.intercalate ['\n', '\n'] (b' :: tl)) =
        [] :: splitNl (List.intercalate ['\n', '\n'] (b' :: tl)) from by
          simp [splitNl]]
      rw [ih (by simp)]
      rw [show List.map splitNl (b :: b' :: tl) =
        splitNl b :: splitNl b' :: List.map splitNl tl from rfl,
        gen_intercalate_cons_two, List.append_assoc]
      rfl


theorem mem_intercalate_single {w c : Char} (ts : List Str)
    (hc : c ∈ List.intercalate [w] ts) : c = w ∨ ∃ t ∈ ts, c ∈ t := by
  induction ts with
  | nil => simp [List.intercalate] at hc
  | cons t ts ih =>
    cases ts with
    | nil =>
      rw [gen_intercalate_single] at hc
      exact Or.inr ⟨t, List.mem_cons_self t [], hc⟩
    | cons t' ts' =>
      rw [gen_intercalate_cons_two, List.append_assoc, List.singleton_append]
        at hc
      rcases List.mem_append.mp hc with h1 | h2
      · exact Or.inr ⟨t, List.mem_cons_self t (t' :: ts'), h1⟩
      · rcases List.mem_cons.mp h2 with rfl | h3
        · exact Or.inl rfl
        · rcases ih h3 with h4 | ⟨u, hu, hcu⟩
          · exact Or.inl h4
          · exact Or.inr ⟨u, List.mem_cons_of_mem t hu, hcu⟩

theorem fmtg_no_newline {x : ℚ} {c : Char} (hc : c ∈ fmtg x) : c ≠ '\n' := by
  intro h
  subst h
  have := (fmtg_isToken x).2 _ hc
  simp [isWs] at this

theorem splitNl_four_lines (L0 L1 L2 L3 : Str)
    (h0 : ∀ c ∈ L0, c ≠ '\n') (h1 : ∀ c ∈ L1, c ≠ '\n')
    (h2 : ∀ c ∈ L2, c ≠ '\n') (h3 : ∀ c ∈ L3, c ≠ '\n') :
    splitNl (List.intercalate ['\n'] ([L0, L1, L2, L3] ++ [[]])) =
      [L0, L1, L2, L3, []] := by
  rw [List.cons_append, List.cons_append, List.cons_append, List.cons_append,
    List.nil_append]
  rw [gen_intercalate_cons_two, gen_intercalate_cons_two,
    gen_intercalate_cons_two, gen_intercalate_cons_two, gen_intercalate_single]
  simp only [List.append_assoc, List.singleton_append, List.append_nil]
  rw [splitNl_append_newline, splitNl_no_newline _ h0,
    splitNl_append_newline, splitNl_no_newline _ h1,
    splitNl_append_newline, splitNl_no_newline _ h2,
    splitNl_append_newline, splitNl_no_newline _ h3]
  rfl

theorem splitNl_to_string_block (T : FSLLinearTransform) :
    splitNl T.to_string =
      [List.intercalate [' '] [fmtg (T.parameters 0 0), fmtg (T.parameters 0 1), fmtg (T.parameters 0 2), fmtg (T.parameters 0 3)],
       List.intercalate [' '] [fmtg (T.parameters 1 0), fmtg (T.parameters 1 1), fmtg (T.parameters 1 2), fmtg (T.parameters 1 3)],
       List.intercalate [' '] [fmtg (T.parameters 2 0), fmtg (T.parameters 2 1), fmtg (T.parameters 2 2), fmtg (T.parameters 2 3)],
       List.intercalate [' '] [fmtg (T.parameters 3 0), fmtg (T.parameters 3 1), fmtg (T.parameters 3 2), fmtg (T.parameters 3 3)],
       []] := by
  have hline : ∀ i : Fin 4, ∀ c ∈ List.intercalate [' ']
      [fmtg (T.parameters i 0), fmtg (T.parameters i 1),
       fmtg (T.parameters i 2), fmtg (T.parameters i 3)], c ≠ '\n' := by
    intro i c hc
    rcases mem_intercalate_single _ hc with rfl | ⟨t, ht, hct⟩
    · decide
    · simp only [List.mem_cons, List.not_mem_nil, or_false] at ht
      rcases ht with rfl | rfl | rfl | rfl <;> exact fmtg_no_newline hct
  have hts : T.to_string = List.intercalate ['\n']
      ([List.intercalate [' '] [fmtg (T.parameters 0 0), fmtg (T.parameters 0 1), fmtg (T.parameters 0 2), fmtg (T.parameters 0 3)],
        List.intercalate [' '] [fmtg (T.parameters 1 0), fmtg (T.parameters 1 1), fmtg (T.parameters 1 2), fmtg (T.parameters 1 3)],
        List.intercalate [' '] [fmtg (T.parameters 2 0), fmtg (T.parameters 2 1), fmtg (T.parameters 2 2), fmtg (T.parameters 2 3)],
        List.intercalate [' '] [fmtg (T.parameters 3 0), fmtg (T.parameters 3 1), fmtg (T.parameters 3 2), fmtg (T.parameters 3 3)]] ++ [[]]) := rfl
  rw [hts]
  exact splitNl_four_lines _ _ _ _ (hline 0) (hline 1) (hline 2) (hline 3)


theorem strip_eq_nil_iff (l : Str) : strip l = [] ↔ ∀ c ∈ l, isWs c = true := by
  rw [strip]
  constructor
  · intro h c hc
    rw [List.reverse_eq_nil_iff, List.dropWhile_eq_nil_iff] at h
    by_cases h1 : c ∈ l.takeWhile isWs
    · exact List.mem_takeWhile_imp h1
    · have h2 : c ∈ l.dropWhile isWs := by
        have := List.takeWhile_append_dropWhile (p := isWs) (l := l)
        rw [← this] at hc
        rcases List.mem_append.mp hc with h3 | h3
        · exact absurd h3 h1
        · exact h3
      exact h _ (List.mem_reverse.mpr h2)
  · intro h
    rw [List.reverse_eq_nil_iff, List.dropWhile_eq_nil_iff]
    intro c hc
    rw [List.mem_reverse] at hc
    exact h c ((List.dropWhile_sublist isWs).subset hc)

theorem mapM_some_length {α β : Type} {f : α → Option β} :
    ∀ {l : List α} {l' : List β}, l.mapM f = some l' → l'.length = l.length := by
  intro l
  induction l with
  | nil =>
    intro l' h
    rw [List.mapM_nil] at h
    cases h
    rfl
  | cons a t ih =>
    intro l' h
    rw [List.mapM_cons] at h
    cases hfa : f a with
    | none => rw [hfa] at h; simp at h
    | some b =>
      rw [hfa] at h
      cases hmt : t.mapM f with
      | none => rw [hmt] at h; simp at h
      | some bs =>
        rw [hmt] at h
        simp at h
        rw [← h]
        simp [ih hmt]

theorem mapM_some_getElem {α β : Type} {f : α → Option β} :
    ∀ {l : List α} {l' : List β}, l.mapM f = some l' →
      ∀ (i : ℕ) (a : α), l[i]? = some a → l'[i]? = f a := by
  intro l
  induction l with
  | nil => intro l' _ i a ha; simp at ha
  | cons x t ih =>
    intro l' h i a ha
    rw [List.mapM_cons] at h
    cases hfa : f x with
    | none => rw [hfa] at h; simp at h
    | some b =>
      rw [hfa] at h
      cases hmt : t.mapM f with
      | none => rw [hmt] at h; simp at h
      | some bs =>
        rw [hmt] at h
        simp at h
        cases i with
        | zero =>
          rw [← h]
          simp only [List.getElem?_cons_zero, Option.some_inj] at ha ⊢
          rw [← ha, hfa]
        | succ n =>
          rw [← h]
          simp only [List.getElem?_cons_succ] at ha ⊢
          exact ih hmt n a ha

theorem mapM_of_map {α β γ : Type} (f : β → Option γ) (g : α → β) :
    ∀ l : List α, (l.map g).mapM f = l.mapM fun a => f (g a) := by
  intro l
  induction l with
  | nil => rfl
  | cons a t ih => rw [List.map_cons, List.mapM_cons, List.mapM_cons, ih]

end FSL

/-! ## The specified properties -/

namespace FSL

/-- Claim C1: for every RAS+ affine `ras` and image pair,
`FSLLinearTransform.from_ras` computes `pre = reference.affine · scale_ref⁻¹ ·
swap_ref⁻¹` and `post = swap_mov⁻¹ · scale_mov · moving.affine⁻¹` from the
Coordinate Adapter outputs of the two images, and stores
`transpose(inverse(axis_transpose(post · ras · pre)))` as the native matrix,
where `axis_transpose` swaps the first two axes of the 4×4 product before
inversion. -/
theorem from_ras_pre_post (ras : Mat4) (moving reference : ImageRef) :
    (FSLLinearTransform.from_ras ras moving reference).parameters =
      (inv4 (swapaxes01
        ((inv4 (_fsl_aff_adapt moving).1 * (_fsl_aff_adapt moving).2 *
            inv4 moving.affine)
          * ras
          * (reference.affine * inv4 (_fsl_aff_adapt reference).2 *
              inv4 (_fsl_aff_adapt reference).1))))ᵀ := by
  simp only [FSLLinearTransform.from_ras, mul_assoc]

/-- Claim C2: `_fsl_aff_adapt` returns `scale = diag(zooms, 1)`; `swap` is the
identity whenever the affine's determinant is not positive (determinant 0
included, without raising), and otherwise is the identity with entry `(0,0)`
set to `−1` and entry `(0,3)` set to `(shape[0] − 1) · voxel_size[0]`.  On the
spec's concrete image (affine `diag(2,2,2,1)`, shape `(10,10,10)`): swap has
`(0,0) = −1` and `(0,3) = 18`, and scale is `diag(2,2,2,1)`. -/
theorem fsl_aff_adapt_spec (image : ImageRef) :
    (_fsl_aff_adapt image).2 =
        Matrix.diagonal ![image.zooms 0, image.zooms 1, image.zooms 2, 1]
    ∧ (image.affine.det ≤ 0 → (_fsl_aff_adapt image).1 = 1)
    ∧ (0 < image.affine.det → (_fsl_aff_adapt image).1 =
        !![-1, 0, 0, ((image.shape 0 : ℚ) - 1) * image.zooms 0;
            0, 1, 0, 0; 0, 0, 1, 0; 0, 0, 0, 1])
    ∧ (_fsl_aff_adapt demoImage).1 0 0 = -1
    ∧ (_fsl_aff_adapt demoImage).1 0 3 = 18
    ∧ (_fsl_aff_adapt demoImage).2 = Matrix.diagonal ![2, 2, 2, 1]
    ∧ (_fsl_aff_adapt singularImage).1 = 1 := by
  have hswp : (_fsl_aff_adapt demoImage).1 =
      !![-1, 0, 0, 18; 0, 1, 0, 0; 0, 0, 1, 0; 0, 0, 0, 1] := by
    rw [_fsl_aff_adapt]
    norm_num [demoImage, Matrix.det_diagonal, Fin.prod_univ_four]
  refine ⟨rfl, ?_, ?_, ?_, ?_, ?_, ?_⟩
  · intro h
    rw [_fsl_aff_adapt]
    simp [not_lt.mpr h]
  · intro h
    rw [_fsl_aff_adapt]
    simp [h]
  · rw [hswp]
    simp
  · rw [hswp]
    simp
  · rfl
  · rw [_fsl_aff_adapt]
    simp [singularImage]

/-- Witness for the claim-C2 theorem: its positive-determinant branch fires
on the spec's concrete image, giving the explicitly flipped swap matrix. -/
theorem fsl_aff_adapt_spec_witness :
    (_fsl_aff_adapt demoImage).1 =
      !![-1, 0, 0, ((demoImage.shape 0 : ℚ) - 1) * demoImage.zooms 0;
          0, 1, 0, 0; 0, 0, 1, 0; 0, 0, 0, 1] :=
  (fsl_aff_adapt_spec demoImage).2.2.1
    (by norm_num [demoImage, Matrix.det_diagonal, Fin.prod_univ_four])

/-- Claim C3: for every invertible affine `A` and every image pair with
nonsingular affines and nonzero voxel sizes, converting to native form with
`from_ras` and back with `to_ras` on the same image pair returns `A`; in the
exact rational model the round trip is an identity, which subsumes the
claim's floating-point tolerance. -/
theorem from_ras_to_ras_roundtrip (A : Mat4) (moving reference : ImageRef)
    (hA : A.det ≠ 0) (hmov : moving.affine.det ≠ 0)
    (href : reference.affine.det ≠ 0)
    (hmz : ∀ i, moving.zooms i ≠ 0) (hrz : ∀ i, reference.zooms i ≠ 0) :
    (FSLLinearTransform.from_ras A moving reference).to_ras moving reference =
      A := by
  have hpre : (reference.affine *
      (inv4 (_fsl_aff_adapt reference).2 *
        inv4 (_fsl_aff_adapt reference).1)).det ≠ 0 := by
    rw [Matrix.det_mul, Matrix.det_mul]
    exact mul_ne_zero href (mul_ne_zero
      (det_inv4_ne_zero (det_adapt_spc_ne_zero hrz))
      (det_inv4_ne_zero (det_adapt_swp_ne_zero _)))
  have hpost : (inv4 (_fsl_aff_adapt moving).1 *
      ((_fsl_aff_adapt moving).2 * inv4 moving.affine)).det ≠ 0 := by
    rw [Matrix.det_mul, Matrix.det_mul]
    exact mul_ne_zero (det_inv4_ne_zero (det_adapt_swp_ne_zero _))
      (mul_ne_zero (det_adapt_spc_ne_zero hmz) (det_inv4_ne_zero hmov))
  simp only [FSLLinearTransform.from_ras, FSLLinearTransform.to_ras,
    Matrix.transpose_transpose]
  exact roundtrip_core _ _ _ hpost hpre hA

/-- Witness for the claim-C3 theorem: the identity affine between two copies
of a concrete radiological image round-trips to itself. -/
theorem from_ras_to_ras_roundtrip_witness :
    (FSLLinearTransform.from_ras 1 negImage negImage).to_ras negImage
      negImage = 1 := by
  refine from_ras_to_ras_roundtrip 1 negImage negImage ?_ ?_ ?_ ?_ ?_
  · rw [Matrix.det_one]
    norm_num
  · norm_num [negImage, Matrix.det_diagonal, Fin.prod_univ_four]
  · norm_num [negImage, Matrix.det_diagonal, Fin.prod_univ_four]
  · intro i
    fin_cases i <;> norm_num [negImage]
  · intro i
    fin_cases i <;> norm_num [negImage]

end FSL


namespace FSL

/-- Claim C4: a Single Transform whose native-matrix entries are exactly
representable at the printed `%g` precision (here: the integer subdomain
`gExact` on which the modelled formatter coincides exactly with `%g`)
is reproduced exactly by `from_string` after `to_string`. -/
theorem to_string_from_string_roundtrip (T : FSLLinearTransform)
    (h : ∀ i j, gExact (T.parameters i j)) :
    FSLLinearTransform.from_string T.to_string = some T := by
  have hp : ∀ i j, parseTok (fmtg (T.parameters i j)) = some (T.parameters i j) :=
    fun i j => parseTok_fmtg (h i j).1
  have hts : T.to_string = List.intercalate ['\n']
      ((((List.finRange 4).map fun i =>
          (List.finRange 4).map fun j => fmtg (T.parameters i j)).map
        (List.intercalate [' '])) ++ [[]]) := by
    rw [FSLLinearTransform.to_string, List.map_map]
    rfl
  have hsplit : splitWs T.to_string =
      [fmtg (T.parameters 0 0), fmtg (T.parameters 0 1),
       fmtg (T.parameters 0 2), fmtg (T.parameters 0 3),
       fmtg (T.parameters 1 0), fmtg (T.parameters 1 1),
       fmtg (T.parameters 1 2), fmtg (T.parameters 1 3),
       fmtg (T.parameters 2 0), fmtg (T.parameters 2 1),
       fmtg (T.parameters 2 2), fmtg (T.parameters 2 3),
       fmtg (T.parameters 3 0), fmtg (T.parameters 3 1),
       fmtg (T.parameters 3 2), fmtg (T.parameters 3 3)] := by
    rw [hts, splitWs_block]
    · rw [finRange_four]
      rfl
    · intro r hr
      rw [finRange_four] at hr
      simp only [List.map_cons, List.map_nil, List.mem_cons] at hr
      rcases hr with rfl | rfl | rfl | rfl | hr
      all_goals first
        | (refine ⟨by simp, ?_⟩
           intro t ht
           simp only [List.mem_cons, List.not_mem_nil, or_false] at ht
           rcases ht with rfl | rfl | rfl | rfl <;> exact fmtg_isToken _)
        | simp at hr
  rw [FSLLinearTransform.from_string, hsplit]
  simp only [List.mapM_cons, List.mapM_nil, hp, Option.bind_some, Option.pure_def,
    Option.bind_eq_bind, Option.some_bind]
  norm_num
  refine congrArg FSLLinearTransform.mk ?_
  ext i j
  fin_cases i <;> fin_cases j <;> rfl

/-- Witness for the claim-C4 theorem: the identity transform (all entries
exactly representable) text-round-trips to itself. -/
theorem to_string_from_string_roundtrip_witness :
    FSLLinearTransform.from_string
      (FSLLinearTransform.to_string ⟨1⟩) = some ⟨1⟩ := by
  refine to_string_from_string_roundtrip ⟨1⟩ ?_
  intro i j
  fin_cases i <;> fin_cases j <;> decide

/-- Claim C5: for a series of more than one transform, `to_string()` produces
the elements' rendered text blocks in series order with exactly one blank
line between consecutive blocks: decomposed at newline characters, the output
is the elements' own line blocks (four number rows plus the trailing empty
piece of the block's terminating newline) interleaved with a single empty
line. -/
theorem array_to_string_blocks (arr : FSLLinearTransformArray)
    (hlen : 1 < arr.xforms.length) :
    splitNl arr.to_string =
      List.intercalate [[]] (arr.xforms.map fun x => splitNl x.to_string)
    ∧ ∀ x ∈ arr.xforms, ∃ l0 l1 l2 l3 : Str,
        splitNl x.to_string = [l0, l1, l2, l3, []] := by
  constructor
  · rw [FSLLinearTransformArray.to_string,
      splitNl_intercalate_blocks _ (by
        intro h
        rw [List.map_eq_nil_iff] at h
        rw [h] at hlen
        simp at hlen),
      List.map_map]
    rfl
  · intro x _
    exact ⟨_, _, _, _, splitNl_to_string_block x⟩

/-- Witness for the claim-C5 theorem on a concrete two-element series. -/
theorem array_to_string_blocks_witness :
    splitNl demoArr.to_string =
      List.intercalate [[]] (demoArr.xforms.map fun x => splitNl x.to_string) :=
  (array_to_string_blocks demoArr (by decide)).1

/-- Claim C6: `to_filename(p)` on a one-element series writes exactly one
file at `p` itself; on a series of `N > 1` elements it writes exactly the `N`
files `p.000`, `p.001`, ..., `p.%03d` in series order, each containing that
element's `to_string()` output, and no file literally named `p`. -/
theorem array_to_filename_split (arr : FSLLinearTransformArray) (p : Str) :
    (∀ x, arr.xforms = [x] → arr.to_filename p = [(p, x.to_string)])
    ∧ (1 < arr.xforms.length →
        (arr.to_filename p).length = arr.xforms.length
        ∧ (∀ i x, arr.xforms[i]? = some x →
            (arr.to_filename p)[i]? = some (p ++ '.' :: fmt03d i, x.to_string))
        ∧ ∀ w ∈ arr.to_filename p, w.1 ≠ p) := by
  constructor
  · intro x hx
    rw [FSLLinearTransformArray.to_filename, hx]
    simp [FSLLinearTransform.to_filename]
  · intro hlen
    have hne : arr.xforms.length ≠ 1 := by omega
    rw [FSLLinearTransformArray.to_filename, if_neg hne]
    refine ⟨by simp [List.enum_length], ?_, ?_⟩
    · intro i x hx
      simp [List.getElem?_map, List.getElem?_enum, hx]
    · intro w hw
      simp only [List.mem_map] at hw
      obtain ⟨⟨i, x⟩, _, rfl⟩ := hw
      intro hcontra
      have h2 : (p ++ '.' :: fmt03d i).length = p.length := by
        simp only at hcontra
        rw [hcontra]
      rw [List.length_append] at h2
      simp at h2

/-- Witness for the claim-C6 theorem: the two-element series writes as many
files as it has elements. -/
theorem array_to_filename_split_witness :
    (demoArr.to_filename "out".toList).length = demoArr.xforms.length :=
  ((array_to_filename_split demoArr "out".toList).2 (by decide)).1

/-- Claim C7: `FSLLinearTransformArray.from_string` splits its input on line
boundaries, discards the whitespace-only lines (a line is discarded exactly
when all its characters are whitespace), and parses each remaining line
independently, stripped, via `FSLLinearTransform.from_string`, producing one
element per non-whitespace line in line order. -/
theorem array_from_string_lines (s : Str) :
    (FSLLinearTransformArray.from_string s =
      (((splitLines s).filter fun l => strip l ≠ []).mapM
        (fun l => FSLLinearTransform.from_string (strip l))).map
        fun xfms => FSLLinearTransformArray.mk xfms)
    ∧ (∀ l : Str, strip l = [] ↔ ∀ c ∈ l, isWs c = true)
    ∧ ∀ arr, FSLLinearTransformArray.from_string s = some arr →
        arr.xforms.length =
          ((splitLines s).filter fun l => strip l ≠ []).length
        ∧ ∀ (i : ℕ) (l : Str),
            ((splitLines s).filter fun l => strip l ≠ [])[i]? = some l →
            arr.xforms[i]? = FSLLinearTransform.from_string (strip l) := by
  have hcomm : ((splitLines s).map strip).filter (fun t => t ≠ []) =
      ((splitLines s).filter fun l => strip l ≠ []).map strip := by
    rw [List.filter_map]
    rfl
  have hdef : FSLLinearTransformArray.from_string s =
      (((splitLines s).filter fun l => strip l ≠ []).mapM
        (fun l => FSLLinearTransform.from_string (strip l))).map
        fun xfms => FSLLinearTransformArray.mk xfms := by
    rw [FSLLinearTransformArray.from_string, hcomm, mapM_of_map]
  refine ⟨hdef, strip_eq_nil_iff, ?_⟩
  intro arr harr
  rw [hdef] at harr
  cases hm : (((splitLines s).filter fun l => strip l ≠ []).mapM
      (fun l => FSLLinearTransform.from_string (strip l))) with
  | none => rw [hm] at harr; simp at harr
  | some xfms =>
    rw [hm] at harr
    simp at harr
    constructor
    · rw [← harr]
      exact mapM_some_length hm
    · intro i l hl
      rw [← harr]
      exact mapM_some_getElem hm i l hl

/-- The concrete sixteen-token line parses to `demoXfm`. -/
theorem from_string_demoLine :
    FSLLinearTransform.from_string demoLine = some demoXfm := by
  have h1 : (splitWs demoLine).mapM parseTok =
      some [1, 0, 0, 2, 0, 1, 0, 3, 0, 0, 1, 4, 0, 0, 0, 1] := by decide
  rw [FSLLinearTransform.from_string, h1]
  norm_num
  refine congrArg FSLLinearTransform.mk ?_
  ext i j
  fin_cases i <;> fin_cases j <;> rfl

/-- The concrete series text (blank and whitespace-only lines around one
transform line) parses to the one-element series holding `demoXfm`. -/
theorem from_string_demoSeriesText :
    FSLLinearTransformArray.from_string demoSeriesText = some ⟨[demoXfm]⟩ := by
  have hl : ((splitLines demoSeriesText).map strip).filter (fun t => t ≠ []) =
      [demoLine] := by decide
  rw [FSLLinearTransformArray.from_string, hl, List.mapM_cons,
    from_string_demoLine, List.mapM_nil]
  rfl

/-- Witness for the claim-C7 theorem: a concrete text with blank and
whitespace-only lines around one transform line parses to a one-element
series, one element per non-whitespace line. -/
theorem array_from_string_lines_witness :
    (FSLLinearTransformArray.mk [demoXfm]).xforms.length =
      ((splitLines demoSeriesText).filter fun l => strip l ≠ []).length :=
  ((array_from_string_lines demoSeriesText).2.2 ⟨[demoXfm]⟩
    from_string_demoSeriesText).1

/-- Claim C8: `FSLLinearTransformArray.from_ras` builds exactly one Single
Transform per leading-axis slab of the stacked input via the single-transform
`from_ras`, in index order; and `FSLLinearTransformArray.to_ras` stacks each
element's `to_ras` result, slab `i` coming from element `i`. -/
theorem array_ras_elementwise (ras : List Mat4) (arr : FSLLinearTransformArray)
    (moving reference : ImageRef) :
    ((FSLLinearTransformArray.from_ras ras moving reference).xforms.length =
        ras.length
      ∧ ∀ (i : ℕ) (r : Mat4), ras[i]? = some r →
        (FSLLinearTransformArray.from_ras ras moving reference).xforms[i]? =
          some (FSLLinearTransform.from_ras r moving reference))
    ∧ ((arr.to_ras moving reference).length = arr.xforms.length
      ∧ ∀ (i : ℕ) (x : FSLLinearTransform), arr.xforms[i]? = some x →
        (arr.to_ras moving reference)[i]? =
          some (x.to_ras moving reference)) := by
  refine ⟨⟨by simp [FSLLinearTransformArray.from_ras], ?_⟩,
    by simp [FSLLinearTransformArray.to_ras], ?_⟩
  · intro i r h
    rw [FSLLinearTransformArray.from_ras]
    simp [List.getElem?_map, h]
  · intro i x h
    rw [FSLLinearTransformArray.to_ras]
    simp [List.getElem?_map, h]

/-- Witness for the claim-C8 theorem: a one-slab stack produces the slab's
transform at index 0. -/
theorem array_ras_elementwise_witness :
    (FSLLinearTransformArray.from_ras [1] negImage negImage).xforms[0]? =
      some (FSLLinearTransform.from_ras 1 negImage negImage) :=
  ((array_ras_elementwise [1] demoArr negImage negImage).1).2 0 1 rfl

/-- Claim C9: `to_filename(p)` on an empty series terminates without raising
and performs no write at all: neither at `p` nor at any `p.%03d` sibling. -/
theorem to_filename_empty_series (p : Str) :
    FSLLinearTransformArray.to_filename ⟨[]⟩ p = [] := by
  rw [FSLLinearTransformArray.to_filename]
  simp

/-- Claim C10: the native matrix stored by `from_ras` is the plain inverse of
`post · ras · pre` with no transposition: the axis swap before inversion and
the transpose on storage cancel, since `transpose(inverse(axis_transpose(X)))
= inverse(X)` for every 4×4 `X`. -/
theorem from_ras_stores_plain_inverse (ras : Mat4) (moving reference : ImageRef) :
    (FSLLinearTransform.from_ras ras moving reference).parameters =
      inv4 ((inv4 (_fsl_aff_adapt moving).1 * (_fsl_aff_adapt moving).2 *
          inv4 moving.affine)
        * ras
        * (reference.affine * inv4 (_fsl_aff_adapt reference).2 *
            inv4 (_fsl_aff_adapt reference).1))
    ∧ ∀ X : Mat4, (inv4 (swapaxes01 X))ᵀ = inv4 X := by
  constructor
  · simp only [FSLLinearTransform.from_ras, swapaxes01, inv4_transpose,
      Matrix.transpose_transpose, mul_assoc]
  · intro X
    rw [swapaxes01, inv4_transpose, Matrix.transpose_transpose]

end FSL
